import Mathlib

set_option maxHeartbeats 1000000

/-!
Shallow embedding of `src/TAOIST_MC.py`, a Monte-Carlo synthesizer of the
HI (Lyman-continuum plus Lyman-series) optical-depth spectrum along one
sightline.

Modelling conventions.
* The pure numerical routines of the module are translated over an arbitrary
  linear ordered field `α`.  The functions the module delegates to external
  libraries (`np.exp`, `np.sinh`, `np.sqrt`, the float power `**`,
  `np.pi`, `scipy.integrate.quad`, and the astropy WMAP9 constants
  `cosmo.Om0` / `cosmo.Ode0`) are passed in as an explicit oracle bundle
  `Extern α`; structural claims are proved for every bundle, value-level claims
  are settled at `α := ℝ` with the genuine transcendental functions
  (`extR` below).
* A floating-point division whose denominator is zero produces a non-finite
  float (inf or NaN) that poisons every later arithmetic step; this is
  modelled by `qdiv` returning `Option α`, `none` standing for "the float
  result is non-finite".  The module's own cleanup step
  (`tau_HI_LAF`, lines 256-257 of the source: non-finite entries are set
  to 0 before accumulation) becomes `Option.getD _ 0`.
* The two random samplers the module consumes (`np.random.poisson` and the
  external `cdf_sampler` module, which is part of the repository but not
  under `src/`) are modelled from the spec as deterministic functions of an
  explicit seed/draw argument; see `Seed` below.
-/

/-- Bundle of the external functions and constants `TAOIST_MC.py` delegates
to: `np.exp`, `np.sinh`, `np.sqrt`, the float power `**`, the constant
`np.pi`, the quadrature routine `scipy.integrate.quad` (as a functional
taking the integrand and the two endpoints), and the cosmology constants
`cosmo.Om0`, `cosmo.Ode0` of the astropy WMAP9 provider. -/
structure Extern (α : Type) where
  expF : α → α
  sinhF : α → α
  sqrtF : α → α
  pw : α → α → α
  piV : α
  quad : (α → α) → α → α → α
  Om0 : α
  Ode0 : α

variable {α : Type} [LinearOrderedField α]

/-- Division guarded against a zero denominator: a float division by zero
yields a non-finite value (inf or NaN), modelled as `none`. -/
def qdiv (x y : α) : Option α := if y = 0 then none else some (x / y)

/-- Source lines 20-23, `dX(z, Om0, Ode0)`: the comoving path-length kernel
`(1+z)**2 / sqrt(Ode0 + Om0*(1+z)**3)`. -/
def dX (E : Extern α) (z Om0 Ode0 : α) : α :=
  E.pw (1 + z) 2 / E.sqrtF (Ode0 + Om0 * (1 + z) ^ 3)

/-- Source lines 36-38, `dZ_2_dX(z, dz, Om0, Ode0)`: the definite integral of
`dX` over `[z, z + dz]`, computed by the delegated quadrature routine
(`integ.quad(dX, z, z+dz, args=(Om0, Ode0))`). -/
def dZ_2_dX (E : Extern α) (z dz Om0 Ode0 : α) : α :=
  E.quad (fun t => dX E t Om0 Ode0) z (z + dz)

/-- Source lines 55-59 of `N_abs`: the broken-power-law rate evaluated at one
log10 column-density edge `e`; the `np.where(NHIs >= 17.2)` overwrite makes
the high-column branch apply exactly when `17.2 ≤ e`. -/
def N_abs_rate (E : Extern α) (z e : α) : α :=
  if 17.2 ≤ e then
    E.pw 10 7.542 * (1 + z) * E.pw (E.pw 10 e) (-1.463)
  else
    E.pw 10 9.305 * E.pw (1 + z) 2.5 * E.pw (E.pw 10 e) (-1.635)

/-- Source lines 60-62 of `N_abs`: the linear-space bin widths
`dns = 10**NHIs[i+1] - 10**NHIs[i]` for `i` in `range(len(NHIs)-1)`. -/
def N_abs_widths (E : Extern α) : List α → List α
  | a :: b :: rest => (E.pw 10 b - E.pw 10 a) :: N_abs_widths E (b :: rest)
  | _ => []

/-- Source lines 54-64, `N_abs(NHIs, z)`: rates at every edge, the first
`len(NHIs)-1` of them multiplied by the linear bin width, and the last entry
dropped (`return y[:-1]`).  `zipWith` against the `len-1` width list is
exactly `y[:-1]` after the in-place multiplication loop. -/
def N_abs (E : Extern α) (NHIs : List α) (z : α) : List α :=
  List.zipWith (fun y w => y * w) (NHIs.map (N_abs_rate E z)) (N_abs_widths E NHIs)

/-- Source lines 90-96, `N_single_z(NHIs, z, dX, n)`: builds the weight array
`N_abs(NHIs, z) * dX` over the support `NHIs[:-1]` and delegates the actual
drawing of `n` log column densities to the external `cdf_sampler`
(`sampler` argument here); returns the drawn sample. -/
def N_single_z (E : Extern α) (sampler : List α → List α → α → List α)
    (NHIs : List α) (z dXv n : α) : List α :=
  sampler NHIs.dropLast ((N_abs E NHIs z).map (fun y => y * dXv)) n

/-- Source lines 110-124, `fz_HI(z, dz)`: three-segment power law in `(1+z)`
with breakpoints `z1 = 1.2`, `z2 = 4.0`; the three sequential `if`s of the
source partition the line, hence the nested conditional. -/
def fz_HI (E : Extern α) (z dz : α) : α :=
  if z ≤ 1.2 then
    400 * E.pw ((1 + z) / (1 + 1.2)) 0.2 * dz
  else if z ≤ 4 then
    400 * E.pw ((1 + z) / (1 + 1.2)) 2.5 * dz
  else
    400 * (E.pw ((1 + 4) / (1 + 1.2)) 2.5 * E.pw ((1 + z) / (1 + 4)) 4) * dz

/-- Source lines 138-142, `make_zdist(zs, dz)`: one Poisson draw with mean
`fz_HI(zs[i], dz)` per redshift bin.  Modelled from the spec: `np.random`
is an external seedable random source, so the Poisson sampler is an oracle
`pois` mapping the draw index and the mean to the drawn count. -/
def make_zdist (E : Extern α) (pois : ℕ → α → α) (zs : List α) (dz : α) : List α :=
  (List.range zs.length).map (fun i => pois i (fz_HI E (zs.getD i 0) dz))

/-- Source lines 156-166, `tau_HI_LyC(NHI, lam, z)`: Lyman-limit continuum
optical depth, `NHI * 6.3e-18 * (lam/l_lc)**3` zeroed where
`lam/l_lc > 1`. -/
def tau_HI_LyC (NHI : α) (lam : List α) (z : α) : List α :=
  lam.map (fun l =>
    let l_lc := 911.8 * (1 + z)
    if 1 < l / l_lc then 0 else NHI * 6.3e-18 * ((l / l_lc) * (l / l_lc) * (l / l_lc)))

/-- Source lines 182-203, body of `voigt_approx` at one in-window wavelength
`l` (the source computes these arrays on the masked index set `t_vp`).
Every division whose denominator can vanish goes through `qdiv`, so `none`
marks a non-finite float result; the crucial ones are `K1 = 1/(2 x²)` and
the `1/x²` factor of `K3`, which divide by zero when `l = lami`. -/
def voigtPoint (E : Extern α) (lami b gamma l : α) : Option α :=
  let c : α := 2.998e18
  let ldl := (b / c) * lami
  (qdiv (lami * lami * gamma) (4 * E.piV * c * ldl)).bind fun a =>
  (qdiv (l - lami) ldl).bind fun x =>
  let A1 := E.expF (-1 * (x * x))
  (qdiv 2 (E.sqrtF E.piV)).bind fun sp =>
  let A2 := a * sp
  (qdiv 1 (2 * (x * x))).bind fun K1 =>
  let K2 := (4 * (x * x) + 3) * ((x * x) + 1) * A1
  (qdiv 1 (x * x)).bind fun ix =>
  let K3 := ix * (2 * (x * x) + 3) * E.sinhF (x * x)
  let Kx := K1 * (K2 - K3)
  some (A1 * (1 - A2 * Kx))

/-- Source lines 186-201 of `voigt_approx`: the hard support cutoff.  The
output array `xo` starts as zeros and only indices with
`|lam - lami| <= 1.812*(b/1e13)` receive the profile value, so an
out-of-window wavelength yields exactly `some 0`. -/
def voigt_point (E : Extern α) (lami b gamma l : α) : Option α :=
  if |l - lami| ≤ 1.812 * (b / 1.0e13) then voigtPoint E lami b gamma l else some 0

/-- Source lines 182-203, `voigt_approx(lam, lami, b, gamma)` as an array. -/
def voigt_approx (E : Extern α) (lam : List α) (lami b gamma : α) : List (Option α) :=
  lam.map (voigt_point E lami b gamma)

/-- Source lines 214-218, `doppler_dist(b)`. -/
def doppler_dist (E : Extern α) (b : α) : α :=
  let bs : α := 23
  let A1 := (4 * (bs * bs * bs * bs)) / (b * b * b * b * b)
  let A2 := E.expF (-1 * A1 * b / 4)
  A1 * A2 * 1.0e13

/-- Source lines 246-255 of `tau_HI_LAF`: the contribution of one table line
`(li, fi, gamma)` at one observed wavelength `l`,
`tm_tau = 1.75 * A1 * A2 * A3` with `A1 = c*sqrt(3*pi*sig_T/8)`
(`c = 2.998e10`, `sig_T = 6.625e-25`), `A2 = fi*li/(sqrt(pi)*b)` and `A3`
the Voigt profile at the rest-frame wavelength `l/(1+z)`.  `none` again
stands for a non-finite float value. -/
def lineTerm (E : Extern α) (b z li fi gamma l : α) : Option α :=
  let A1 := 2.998e10 * E.sqrtF ((3 * E.piV * 6.625e-25) / 8)
  (qdiv (fi * li) (E.sqrtF E.piV * b)).bind fun A2 =>
  (voigt_point E li b gamma (l / (1 + z))).map fun A3 =>
  1.75 * A1 * A2 * A3

/-- Source lines 232-262, `tau_HI_LAF(wav, z, LAF_table)`: starts from a zero
array, and for each line of the table adds the per-line contribution with
every non-finite entry replaced by zero first
(`tm_tau[bad] = 0.; tau += tm_tau`, lines 256-258).  The Doppler parameter
is one external draw `bdraw` (the source's `bcds.sample[0]`), rescaled by
`1e13`.  A table row is `(li, fi, gamma)` matching columns 0, 1, 2 of
`Lyman_series.dat`. -/
def tau_HI_LAF (E : Extern α) (bdraw : α) (wav : List α) (z : α)
    (table : List (α × α × α)) : List α :=
  let b := bdraw * 1.0e13
  table.foldl
    (fun tau ln =>
      List.zipWith (fun t l => t + (lineTerm E b z ln.1 ln.2.1 ln.2.2 l).getD 0) tau wav)
    (List.replicate wav.length 0)

/-- Source line 284 of `make_tau`: the comoving path length computed for bin
`i`.  The source passes `zs[i] + dz` as the second argument of `dZ_2_dX`
(`DX = dZ_2_dX(zs[i], zs[i]+dz, cosmo.Om0, cosmo.Ode0)`), and `dZ_2_dX`
treats that argument as the interval width, integrating from `z` to
`z + (z + dz)`. -/
def make_tau_DX (E : Extern α) (zs : List α) (dz : α) (i : ℕ) : α :=
  dZ_2_dX E (zs.getD i 0) (zs.getD i 0 + dz) E.Om0 E.Ode0

/-- Source lines 285-288 of `make_tau`: the total column density of bin `i`,
the sum in linear space (`cdt = 10.**cdt; cdt = np.sum(cdt)`) of the log
column densities drawn by the external sampler.  `cs i` is the sampler
invocation of bin `i` (support, weights, requested count). -/
def binTotalN (E : Extern α) (cs : ℕ → List α → List α → α → List α)
    (zs : List α) (dz : α) (fzs NHIs : List α) (i : ℕ) : α :=
  ((N_single_z E (cs i) NHIs (zs.getD i 0) (make_tau_DX E zs dz i)
      (fzs.getD i 0)).map (E.pw 10)).sum

/-- Source lines 289-290 of `make_tau`: the optical-depth increment of bin
`i`, `tau_HI_LyC(cdt, wav, zs[i]) + cdt * tau_HI_LAF(wav, zs[i], table)` —
the column density enters the continuum term inside the call and scales the
line-series term externally.  `bs i` is the Doppler draw of bin `i`. -/
def binInc (E : Extern α) (cs : ℕ → List α → List α → α → List α) (bs : ℕ → α)
    (zs : List α) (dz : α) (fzs NHIs wav : List α)
    (table : List (α × α × α)) (i : ℕ) : List α :=
  let z := zs.getD i 0
  let cdt := binTotalN E cs zs dz fzs NHIs i
  List.zipWith (fun a l => a + cdt * l) (tau_HI_LyC cdt wav z)
    (tau_HI_LAF E (bs i) wav z table)

/-- Source lines 278-292, `make_tau(zs, dz, fzs, NHIs, wav)`: a zero array
accumulating, for each bin `i` with `fzs[i] != 0`, the increment
`binInc`. -/
def make_tau (E : Extern α) (cs : ℕ → List α → List α → α → List α) (bs : ℕ → α)
    (zs : List α) (dz : α) (fzs NHIs wav : List α)
    (table : List (α × α × α)) : List α :=
  (List.range zs.length).foldl
    (fun tau i =>
      if fzs.getD i 0 ≠ 0 then
        List.zipWith (fun a b => a + b) tau (binInc E cs bs zs dz fzs NHIs wav table i)
      else tau)
    (List.replicate wav.length 0)

/-- Modelled from the spec: the random sources of the pipeline —
`np.random.poisson` used by `make_zdist` and the inverse-CDF sampler
`cdf_sampler` (repository code that is not under `src/`; the spec requires
"a seedable, reproducible random source" and a sampler that is
"deterministic under a fixed seed") — are deterministic functions of the
seed, so a seed is modelled as the family of draw functions it
determines. -/
structure Seed (α : Type) where
  pois : ℕ → α → α
  cdf : ℕ → List α → List α → α → List α
  dop : ℕ → α

/-- The full synthesis of the spec's idempotence scenario: `make_zdist`
followed by `make_tau`, all randomness supplied by the seed `s`. -/
def full_run (E : Extern α) (s : Seed α) (zs : List α) (dz : α)
    (NHIs wav : List α) (table : List (α × α × α)) : List α :=
  make_tau E s.cdf s.dop zs dz (make_zdist E s.pois zs dz) NHIs wav table

/-- Concrete computable stand-in for the external bundle over `ℚ`, used only
to witness structural theorems (which hold for every bundle) on concrete
inputs.  The oracle values are arbitrary. -/
def EQ0 : Extern ℚ where
  expF := fun q => 1 + q
  sinhF := fun q => q
  sqrtF := fun q => q
  pw := fun a b => a + b
  piV := 3
  quad := fun _ a b => b - a
  Om0 := 0.2865
  Ode0 := 0.7135

/-- Probe bundle over `ℚ` whose quadrature oracle reports the upper
integration endpoint it was invoked with; it exposes the interval `make_tau`
actually hands to the delegated integrator. -/
def EQup : Extern ℚ where
  expF := fun q => q
  sinhF := fun q => q
  sqrtF := fun q => q
  pw := fun a b => a * b
  piV := 3
  quad := fun _ _ b => b
  Om0 := 0.2865
  Ode0 := 0.7135

/-- Trivial column-density sampler stand-in over `ℚ` for witnesses: always
returns the single log column density 0. -/
def cs0q : ℕ → List ℚ → List ℚ → ℚ → List ℚ := fun _ _ _ _ => [0]

/-- Trivial Doppler draw stand-in over `ℚ` for witnesses. -/
def bs0q : ℕ → ℚ := fun _ => 1

/-- Trivial seed stand-in over `ℚ` for witnesses. -/
def seed0 : Seed ℚ where
  pois := fun _ _ => 1
  cdf := fun _ _ _ _ => [0]
  dop := fun _ => 1

/-- Column-density sampler stand-in over `ℝ` that always draws the single
log column density 0 (total column density `10^0 = 1`). -/
def csR : ℕ → List ℝ → List ℝ → ℝ → List ℝ := fun _ _ _ _ => [0]

/-- Doppler draw stand-in over `ℝ` returning 599.6, a value lying on the
sampler's support grid `np.arange(1, 1000, .1)` (`599.6 = 1 + 5986*0.1`),
so the corresponding Doppler parameter is `b = 5.996e15` angstrom/s. -/
def bsR : ℕ → ℝ := fun _ => 599.6

/-- Oracle bundle over `ℚ` whose power oracle is constantly 1, used to
witness the nonnegativity theorem (its hypothesis on `pw` must hold for
every exponent). -/
def EQ1 : Extern ℚ where
  expF := fun q => q
  sinhF := fun q => q
  sqrtF := fun q => q
  pw := fun _ _ => 1
  piV := 3
  quad := fun _ a _ => a
  Om0 := 0.2865
  Ode0 := 0.7135

/-- The genuine real-number semantics of the external bundle: numpy's
transcendental functions become the corresponding real functions, the float
power becomes the real power, and the quadrature becomes the interval
integral. -/
noncomputable def extR : Extern ℝ where
  expF := Real.exp
  sinhF := Real.sinh
  sqrtF := Real.sqrt
  pw := fun x y => x ^ y
  piV := Real.pi
  quad := fun f a b => ∫ t in a..b, f t
  Om0 := 0.2865
  Ode0 := 0.7135

/-! ### List helper lemmas -/

theorem getD_zipWith {A B C : Type} (f : A → B → C) (l1 : List A) (l2 : List B)
    (j : ℕ) (h1 : j < l1.length) (h2 : j < l2.length) (d1 : A) (d2 : B) (d3 : C) :
    (List.zipWith f l1 l2).getD j d3 = f (l1.getD j d1) (l2.getD j d2) := by
  induction l1 generalizing l2 j with
  | nil => simp at h1
  | cons a t ih =>
    cases l2 with
    | nil => simp at h2
    | cons b t2 =>
      cases j with
      | zero => simp
      | succ n =>
        simp only [List.zipWith_cons_cons, List.getD_cons_succ]
        exact ih t2 n (by simpa using h1) (by simpa using h2) 

theorem getD_list_map {A B : Type} (f : A → B) (l : List A) (j : ℕ)
    (h : j < l.length) (d : A) (d2 : B) :
    (l.map f).getD j d2 = f (l.getD j d) := by
  induction l generalizing j with
  | nil => simp at h
  | cons a t ih =>
    cases j with
    | zero => simp
    | succ n =>
      simp only [List.map_cons, List.getD_cons_succ]
      exact ih n (by simpa using h)

theorem N_abs_widths_length (E : Extern α) :
    ∀ l : List α, (N_abs_widths E l).length = l.length - 1
  | [] => rfl
  | [_] => rfl
  | _ :: b :: rest => by
    simp only [N_abs_widths, List.length_cons]
    rw [N_abs_widths_length E (b :: rest)]
    simp

theorem N_abs_widths_getD (E : Extern α) :
    ∀ (l : List α) (i : ℕ), i + 1 < l.length →
      (N_abs_widths E l).getD i 0 = E.pw 10 (l.getD (i + 1) 0) - E.pw 10 (l.getD i 0)
  | [], i, h => by simp at h
  | [_], i, h => by simp at h
  | _ :: b :: rest, 0, _ => by simp [N_abs_widths]
  | _ :: b :: rest, i + 1, h => by
    simp only [N_abs_widths, List.getD_cons_succ]
    exact N_abs_widths_getD E (b :: rest) i (by simpa using h)

/-! ### Claim theorems -/

/-- Claim C1.  The claim states that the comoving path length used by
`make_tau` for bin `z_i` is the quadrature of the kernel over
`[z_i, z_i + dz]`.  The code instead calls
`dZ_2_dX(zs[i], zs[i]+dz, ...)`, and `dZ_2_dX(z, dz, ...)` integrates over
`[z, z + dz]` with `dz` its second argument, so the quadrature actually runs
over `[z_i, 2*z_i + dz]`.  With a probe quadrature oracle that reports the
upper endpoint it receives: at `z_0 = 3`, `dz = 1/10` the path length of the
bin is computed with upper endpoint `61/10 = 6.1`, while the quadrature over
the bin `[3, 3.1]` (what `dZ_2_dX` itself produces when given the width
`1/10`, matching its docstring `dz = redshift interval`) has upper endpoint
`31/10`. -/
theorem C1_pathlength_interval :
    make_tau_DX EQup [3] (1/10) 0 = 61/10 ∧
    dZ_2_dX EQup 3 (1/10) EQup.Om0 EQup.Ode0 = 31/10 := by
  constructor <;> norm_num [make_tau_DX, dZ_2_dX, EQup]

/-- Claim C4, counterexample.  The claim asserts nonnegativity of every
entry of `tau_HI_LyC` for every wavelength array with `N ≥ 0`, `z ≥ 0`;
at the (negative) wavelength `-911.8` with `N = 1`, `z = 0` the code takes
the `x ≤ 1` branch with `x = -1` and returns `-6.3e-18 < 0`. -/
theorem C4_neg_wavelength_counterexample :
    (0:ℚ) ≤ 1 ∧ (0:ℚ) ≤ 0 ∧ (tau_HI_LyC (1:ℚ) [-911.8] 0).getD 0 0 < 0 := by
  refine ⟨by norm_num, le_refl 0, ?_⟩
  norm_num [tau_HI_LyC]

/-- Claim C4, amended.  For `N ≥ 0` and `z ≥ 0`, `tau_HI_LyC` maps each
wavelength `l` to `N * 6.3e-18 * (l / (911.8*(1+z)))³` when
`l ≤ 911.8*(1+z)` and to exactly `0` otherwise (in particular the output has
the length of the wavelength array); every entry is nonnegative provided the
wavelengths are nonnegative (the unrestricted nonnegativity of the original
claim fails at negative wavelengths, see the counterexample). -/
theorem C4_LyC_amended (N z : α) (lam : List α) (hN : 0 ≤ N) (hz : 0 ≤ z) :
    tau_HI_LyC N lam z
      = lam.map (fun l =>
          if l ≤ 911.8 * (1 + z) then N * 6.3e-18 * (l / (911.8 * (1 + z))) ^ 3 else 0)
    ∧ ((∀ l ∈ lam, 0 ≤ l) → ∀ t ∈ tau_HI_LyC N lam z, 0 ≤ t) := by
  have h1z : (0:α) < 1 + z := by linarith
  have hlc : (0:α) < 911.8 * (1 + z) := by
    have : (0:α) < 911.8 := by norm_num
    exact mul_pos this h1z
  constructor
  · unfold tau_HI_LyC
    refine List.map_congr_left (fun l _ => ?_)
    rcases le_or_lt l (911.8 * (1 + z)) with h | h
    · rw [if_neg (by rw [not_lt, div_le_one hlc]; exact h), if_pos h]
      ring
    · rw [if_pos (by rw [one_lt_div hlc]; exact h), if_neg (by exact not_le.mpr h)]
  · intro hpos t ht
    unfold tau_HI_LyC at ht
    rcases List.mem_map.mp ht with ⟨l, hl, rfl⟩
    by_cases hcond : 1 < l / (911.8 * (1 + z))
    · simp [hcond]
    · simp only [if_neg hcond]
      have hx : 0 ≤ l / (911.8 * (1 + z)) := div_nonneg (hpos l hl) hlc.le
      have : (0:α) ≤ 6.3e-18 := by norm_num
      exact mul_nonneg (mul_nonneg hN this) (mul_nonneg (mul_nonneg hx hx) hx)

/-- Witness for C4's amended theorem at a concrete input. -/
theorem C4_LyC_amended_witness :
    ((0:ℚ) ≤ 1 ∧ (0:ℚ) ≤ 0) ∧
    (tau_HI_LyC (1:ℚ) [500, 1000] 0
        = [500, 1000].map (fun l =>
            if l ≤ 911.8 * (1 + 0) then 1 * 6.3e-18 * (l / (911.8 * (1 + 0))) ^ 3 else 0)
      ∧ ((∀ l ∈ [(500:ℚ), 1000], 0 ≤ l) → ∀ t ∈ tau_HI_LyC (1:ℚ) [500, 1000] 0, 0 ≤ t)) :=
  ⟨⟨by norm_num, le_refl 0⟩, C4_LyC_amended 1 0 [500, 1000] (by norm_num) (le_refl 0)⟩

/-- Claim C5.  For every array of log10 column-density bin edges and `z ≥ 0`
(the hypothesis of the claim; the identity holds for all `z`), `N_abs`
returns one entry fewer than the edge array, and the `i`-th entry is the
broken power law at edge `i` (low branch strictly below the break 17.2, high
branch at or above it, as computed by the delegated power routine `E.pw`)
times the linear bin width `10^edge[i+1] - 10^edge[i]`; only edges `i` with
`i+1 < length` are used, so the final edge never serves as a bin center. -/
theorem C5_Nabs_rates (E : Extern α) (NHIs : List α) (z : α) (hz : 0 ≤ z) :
    (N_abs E NHIs z).length = NHIs.length - 1 ∧
    ∀ i, i + 1 < NHIs.length →
      (N_abs E NHIs z).getD i 0
        = (if NHIs.getD i 0 < 17.2
           then E.pw 10 9.305 * E.pw (1 + z) 2.5 * E.pw (E.pw 10 (NHIs.getD i 0)) (-1.635)
           else E.pw 10 7.542 * (1 + z) * E.pw (E.pw 10 (NHIs.getD i 0)) (-1.463))
          * (E.pw 10 (NHIs.getD (i + 1) 0) - E.pw 10 (NHIs.getD i 0)) := by
  constructor
  · unfold N_abs
    rw [List.length_zipWith, List.length_map, N_abs_widths_length]
    omega
  · intro i hi
    have hlen1 : i < (NHIs.map (N_abs_rate E z)).length := by
      rw [List.length_map]; omega
    have hlen2 : i < (N_abs_widths E NHIs).length := by
      rw [N_abs_widths_length]; omega
    unfold N_abs
    rw [getD_zipWith _ _ _ i hlen1 hlen2 0 0 0,
        getD_list_map _ _ i (by omega) 0 0, N_abs_widths_getD E NHIs i hi]
    unfold N_abs_rate
    rcases lt_or_le (NHIs.getD i 0) 17.2 with h | h
    · rw [if_pos h, if_neg (not_le.mpr h)]
    · rw [if_neg (not_lt.mpr h), if_pos h]

/-- Witness for C5 at a concrete input (edges `[17, 18]`, `z = 0`, oracle
power `pw a b = a + b`): the single output entry is the low branch at edge
17 times the width. -/
theorem C5_Nabs_rates_witness :
    (0:ℚ) ≤ 0 ∧
    (N_abs EQ0 [17, 18] 0).getD 0 0
      = (if (17:ℚ) < 17.2
         then EQ0.pw 10 9.305 * EQ0.pw (1 + 0) 2.5 * EQ0.pw (EQ0.pw 10 17) (-1.635)
         else EQ0.pw 10 7.542 * (1 + 0) * EQ0.pw (EQ0.pw 10 17) (-1.463))
        * (EQ0.pw 10 18 - EQ0.pw 10 17) :=
  ⟨le_refl 0, (C5_Nabs_rates EQ0 [17, 18] 0 (le_refl 0)).2 0 (by norm_num)⟩

theorem zipWith_map_left_self {A B : Type} (f : B → A → B) (h : A → B) :
    ∀ l : List A, List.zipWith f (l.map h) l = l.map (fun x => f (h x) x)
  | [] => rfl
  | a :: t => by
    simp only [List.map_cons, List.zipWith_cons_cons, zipWith_map_left_self f h t]

theorem getD_replicate_of_lt {A : Type} (a d : A) (n j : ℕ) (h : j < n) :
    (List.replicate n a).getD j d = a := by
  induction n generalizing j with
  | zero => omega
  | succ m ih =>
    cases j with
    | zero => simp [List.replicate]
    | succ k => simpa [List.replicate] using ih k (by omega)

/-- Accumulation core of `tau_HI_LAF`: folding the per-line `zipWith` steps
over the table turns a mapped start array into the pointwise sum of the
zeroed per-line contributions. -/
theorem tau_HI_LAF_fold (E : Extern α) (b : α) (wav : List α) (z : α) (h : α → α) :
    ∀ table : List (α × α × α),
      table.foldl
        (fun tau ln =>
          List.zipWith (fun t l => t + (lineTerm E b z ln.1 ln.2.1 ln.2.2 l).getD 0) tau wav)
        (wav.map h)
      = wav.map (fun l =>
          h l + (table.map (fun ln => (lineTerm E b z ln.1 ln.2.1 ln.2.2 l).getD 0)).sum)
  | [] => by simp
  | ln :: rest => by
    rw [List.foldl_cons, zipWith_map_left_self (fun t l => t + (lineTerm E b z ln.1 ln.2.1 ln.2.2 l).getD 0) h wav,
        tau_HI_LAF_fold E b wav z _ rest]
    refine List.map_congr_left (fun l _ => ?_)
    simp [add_assoc]

/-- Pointwise description of `tau_HI_LAF`: each output entry is the sum over
the transition table of the per-line contribution with `none` (the
non-finite float values) replaced by zero. -/
theorem tau_HI_LAF_eq_sum (E : Extern α) (bdraw : α) (wav : List α) (z : α)
    (table : List (α × α × α)) :
    tau_HI_LAF E bdraw wav z table
      = wav.map (fun l =>
          (table.map (fun ln =>
            (lineTerm E (bdraw * 1.0e13) z ln.1 ln.2.1 ln.2.2 l).getD 0)).sum) := by
  unfold tau_HI_LAF
  have hrep : List.replicate wav.length (0:α) = wav.map (fun _ => 0) := by
    simp
  rw [hrep, tau_HI_LAF_fold]
  simp

theorem tau_HI_LAF_length (E : Extern α) (bdraw : α) (wav : List α) (z : α)
    (table : List (α × α × α)) :
    (tau_HI_LAF E bdraw wav z table).length = wav.length := by
  rw [tau_HI_LAF_eq_sum, List.length_map]

theorem binInc_length (E : Extern α) (cs : ℕ → List α → List α → α → List α) (bs : ℕ → α)
    (zs : List α) (dz : α) (fzs NHIs wav : List α) (table : List (α × α × α)) (i : ℕ) :
    (binInc E cs bs zs dz fzs NHIs wav table i).length = wav.length := by
  unfold binInc tau_HI_LyC
  rw [List.length_zipWith, List.length_map, tau_HI_LAF_length]
  omega

theorem maskfold_length (q : ℕ → Prop) [DecidablePred q] (g : ℕ → List α) (m : ℕ)
    (hg : ∀ i, (g i).length = m) :
    ∀ (l : List ℕ) (t : List α), t.length = m →
      (l.foldl (fun tau i => if q i then List.zipWith (fun a b => a + b) tau (g i) else tau)
        t).length = m
  | [], t, ht => ht
  | i :: rest, t, ht => by
    rw [List.foldl_cons]
    rcases Classical.em (q i) with h | h
    · rw [if_pos h]
      exact maskfold_length q g m hg rest _ (by rw [List.length_zipWith, ht, hg i]; omega)
    · rw [if_neg h]
      exact maskfold_length q g m hg rest t ht

theorem maskfold_getD (q : ℕ → Prop) [DecidablePred q] (g : ℕ → List α) (m : ℕ) (j : ℕ)
    (hg : ∀ i, (g i).length = m) (hj : j < m) :
    ∀ (l : List ℕ) (t : List α), t.length = m →
      (l.foldl (fun tau i => if q i then List.zipWith (fun a b => a + b) tau (g i) else tau)
          t).getD j 0
        = t.getD j 0 + ((l.filter (fun i => decide (q i))).map (fun i => (g i).getD j 0)).sum
  | [], t, ht => by simp
  | i :: rest, t, ht => by
    rw [List.foldl_cons]
    rcases Classical.em (q i) with h | h
    · rw [if_pos h,
        maskfold_getD q g m j hg hj rest _ (by rw [List.length_zipWith, ht, hg i]; omega),
        getD_zipWith _ t (g i) j (by omega) (by rw [hg i]; omega) 0 0 0,
        List.filter_cons_of_pos (by simpa using h)]
      simp [add_assoc]
    · rw [if_neg h, maskfold_getD q g m j hg hj rest t ht,
        List.filter_cons_of_neg (by simpa using h)]

theorem foldl_of_none (q : ℕ → Prop) [DecidablePred q] (g : ℕ → List α) :
    ∀ (l : List ℕ) (t : List α), (∀ i ∈ l, ¬ q i) →
      l.foldl (fun tau i => if q i then List.zipWith (fun a b => a + b) tau (g i) else tau) t = t
  | [], t, _ => rfl
  | i :: rest, t, hnone => by
    rw [List.foldl_cons, if_neg (hnone i (by simp))]
    exact foldl_of_none q g rest t (fun i' hi' => hnone i' (by simp [hi']))

theorem tau_HI_LyC_length (NHI : α) (lam : List α) (z : α) :
    (tau_HI_LyC NHI lam z).length = lam.length := by
  unfold tau_HI_LyC
  exact List.length_map _ _

theorem getD_mem_of_lt {A : Type} (l : List A) (j : ℕ) (d : A) (h : j < l.length) :
    l.getD j d ∈ l := by
  induction l generalizing j with
  | nil => simp at h
  | cons a t ih =>
    cases j with
    | zero => simp
    | succ n =>
      simp only [List.getD_cons_succ]
      exact List.mem_cons_of_mem a (ih n (by simpa using h))

/-- Claim C8.  Every entry of `tau_HI_LAF` is the sum, over the transition
table, of the per-line optical-depth contribution with every non-finite value
(`none` in this embedding, produced for instance by the division by `x² = 0`
at a wavelength equal to a line center) replaced by exactly zero before it is
added (`Option.getD _ 0`, the model of source lines 256-257).  In particular
the returned array consists of total field values only — the model's
rendering of "contains only finite values" — for every wavelength array,
redshift, Doppler draw and transition table. -/
theorem C8_LAF_zeroed_accumulation (E : Extern α) (bdraw : α) (wav : List α) (z : α)
    (table : List (α × α × α)) :
    tau_HI_LAF E bdraw wav z table
      = wav.map (fun l =>
          (table.map (fun ln =>
            (lineTerm E (bdraw * 1.0e13) z ln.1 ln.2.1 ln.2.2 l).getD 0)).sum) :=
  tau_HI_LAF_eq_sum E bdraw wav z table

/-- Claim C3.  `make_tau` starts from the all-zero array and accumulates, for
exactly the bins with nonzero absorber count, the increment
`tau_HI_LyC(total_N, wav, z_i) + total_N * tau_HI_LAF(wav, z_i, table)`
(`binInc`), where `total_N = binTotalN` is the linear-space sum
`Σ 10^draw` over the drawn log column densities: first conjunct, each output
entry is the sum of the increments of the nonzero-count bins; second
conjunct, the increment has exactly the claimed shape, with the column
density inside the continuum call and scaling the line-series value
externally; third conjunct, if every count is zero the output is the
all-zero array. -/
theorem C3_make_tau_accumulation (E : Extern α) (cs : ℕ → List α → List α → α → List α)
    (bs : ℕ → α) (zs : List α) (dz : α) (fzs NHIs wav : List α)
    (table : List (α × α × α)) (hlen : zs.length = fzs.length) :
    (∀ j, j < wav.length →
      (make_tau E cs bs zs dz fzs NHIs wav table).getD j 0
        = (((List.range zs.length).filter (fun i => fzs.getD i 0 ≠ 0)).map
            (fun i => (binInc E cs bs zs dz fzs NHIs wav table i).getD j 0)).sum)
    ∧ (∀ i j, j < wav.length →
      (binInc E cs bs zs dz fzs NHIs wav table i).getD j 0
        = (tau_HI_LyC (binTotalN E cs zs dz fzs NHIs i) wav (zs.getD i 0)).getD j 0
          + binTotalN E cs zs dz fzs NHIs i
            * (tau_HI_LAF E (bs i) wav (zs.getD i 0) table).getD j 0)
    ∧ ((∀ f ∈ fzs, f = 0) →
        make_tau E cs bs zs dz fzs NHIs wav table = List.replicate wav.length 0) := by
  refine ⟨?_, ?_, ?_⟩
  · intro j hj
    unfold make_tau
    rw [maskfold_getD (fun i => fzs.getD i 0 ≠ 0)
          (binInc E cs bs zs dz fzs NHIs wav table) wav.length j
          (binInc_length E cs bs zs dz fzs NHIs wav table) hj
          (List.range zs.length) _ (List.length_replicate _ _),
        getD_replicate_of_lt _ _ _ _ hj, zero_add]
  · intro i j hj
    unfold binInc
    rw [getD_zipWith _ _ _ j
          (by rw [tau_HI_LyC_length]; omega)
          (by rw [tau_HI_LAF_length]; omega) 0 0 0]
  · intro hzero
    unfold make_tau
    refine foldl_of_none _ _ _ _ (fun i hi => ?_)
    have hi' : i < fzs.length := by
      have := List.mem_range.mp hi
      omega
    simp only [ne_eq, not_not]
    exact hzero _ (getD_mem_of_lt fzs i 0 hi')

/-- Witness for C3 at a concrete input: two bins, the first with count zero,
the second with count one. -/
theorem C3_make_tau_accumulation_witness :
    ([(1:ℚ), 2]).length = ([(0:ℚ), 1]).length ∧ 0 < ([(500:ℚ)]).length ∧
    (make_tau EQ0 cs0q bs0q [1, 2] (1/10) [0, 1] [17, 18] [500] []).getD 0 0
      = (((List.range ([(1:ℚ), 2]).length).filter
            (fun i => ([(0:ℚ), 1]).getD i 0 ≠ 0)).map
          (fun i => (binInc EQ0 cs0q bs0q [1, 2] (1/10) [0, 1] [17, 18] [500] [] i).getD 0 0)).sum :=
  ⟨rfl, by norm_num,
    (C3_make_tau_accumulation EQ0 cs0q bs0q [1, 2] (1/10) [0, 1] [17, 18] [500] [] rfl).1
      0 (by norm_num)⟩

/-- Claim C10.  Determinism of the full synthesis under a fixed seed.  The
random sources (`np.random.poisson` and the external `cdf_sampler`, which is
repository code outside `src/`) are modelled from the spec's contract —
"deterministic under a fixed seed" — as the draw functions a seed
determines (`Seed`); with the randomness explicit, two runs of
`make_zdist` followed by `make_tau` (`full_run`) with identical inputs and
identical seeds produce identical optical-depth arrays. -/
theorem C10_full_run_deterministic (E : Extern α) (s1 s2 : Seed α)
    (zs1 zs2 : List α) (dz1 dz2 : α) (NHIs1 NHIs2 wav1 wav2 : List α)
    (table1 table2 : List (α × α × α))
    (hs : s1 = s2) (hzs : zs1 = zs2) (hdz : dz1 = dz2) (hN : NHIs1 = NHIs2)
    (hw : wav1 = wav2) (ht : table1 = table2) :
    full_run E s1 zs1 dz1 NHIs1 wav1 table1 = full_run E s2 zs2 dz2 NHIs2 wav2 table2 := by
  subst hs; subst hzs; subst hdz; subst hN; subst hw; subst ht; rfl

/-- Witness for C10 at a concrete input. -/
theorem C10_full_run_deterministic_witness :
    (seed0 = seed0) ∧
    full_run EQ0 seed0 [3] (1/10) [17, 18] [500] []
      = full_run EQ0 seed0 [3] (1/10) [17, 18] [500] [] :=
  ⟨rfl, C10_full_run_deterministic EQ0 seed0 seed0 [3] [3] (1/10) (1/10) [17, 18] [17, 18]
    [500] [500] [] [] rfl rfl rfl rfl rfl rfl⟩

/-- Claim C2, counterexample.  The claim asserts a finite value at every
in-window wavelength, including the line center.  At `lam = lami = 1216`
(with `b = 1e13 > 0`) the wavelength is inside the support window, but the
profile evaluation divides by `x² = 0` in `K1 = 1/(2x²)` (and in `K3`), so
the float result is non-finite (`none` in this embedding).  The `none` is
forced by the division by zero alone, so it arises for every oracle bundle;
it is stated here at the concrete bundle `EQ0`. -/
theorem C2_center_nonfinite_counterexample :
    |(1216:ℚ) - 1216| ≤ 1.812 * ((1.0e13:ℚ) / 1.0e13) ∧
    (voigt_approx EQ0 [(1216:ℚ)] 1216 1.0e13 1).getD 0 none = none := by
  constructor
  · norm_num
  · norm_num [voigt_approx, voigt_point, voigtPoint, qdiv, EQ0]

/-- Claim C2, amended.  For every wavelength with
`|λ - λ_i| > 1.812 (b/1e13)` the output of `voigt_approx` is exactly
`some 0`; inside that window the evaluation is defined (no division by zero,
hence a finite value in exact arithmetic) at every wavelength *different
from the line center*, provided `b ≠ 0`, `λ_i ≠ 0` and the external
constants `π`, `√π` are nonzero.  At `λ = λ_i` the value is non-finite (see
the counterexample); in floating point, in-window wavelengths whose reduced
offset `x` satisfies `x² ≳ 710` additionally overflow `sinh(x²)` — a
float-only effect outside this exact model, noted for completeness. -/
theorem C2_voigt_window_amended (E : Extern α) (lam : List α) (lami b gamma : α)
    (hb : b ≠ 0) (hlami : lami ≠ 0) (hpi : E.piV ≠ 0) (hsq : E.sqrtF E.piV ≠ 0)
    (j : ℕ) (hj : j < lam.length) :
    (1.812 * (b / 1.0e13) < |lam.getD j 0 - lami| →
      (voigt_approx E lam lami b gamma).getD j none = some 0)
    ∧ (|lam.getD j 0 - lami| ≤ 1.812 * (b / 1.0e13) → lam.getD j 0 ≠ lami →
      ((voigt_approx E lam lami b gamma).getD j none).isSome = true) := by
  have hmap : (voigt_approx E lam lami b gamma).getD j none
      = voigt_point E lami b gamma (lam.getD j 0) := by
    unfold voigt_approx
    exact getD_list_map _ lam j hj 0 none
  constructor
  · intro hout
    rw [hmap]
    unfold voigt_point
    rw [if_neg (not_le.mpr hout)]
  · intro hin hne
    have hc : (2.998e18 : α) ≠ 0 := by norm_num
    have hldl : (b / 2.998e18) * lami ≠ 0 := mul_ne_zero (div_ne_zero hb hc) hlami
    have hden1 : 4 * E.piV * 2.998e18 * ((b / 2.998e18) * lami) ≠ 0 :=
      mul_ne_zero (mul_ne_zero (mul_ne_zero (by norm_num) hpi) hc) hldl
    have hx : (lam.getD j 0 - lami) / ((b / 2.998e18) * lami) ≠ 0 :=
      div_ne_zero (sub_ne_zero.mpr hne) hldl
    have hxx : (lam.getD j 0 - lami) / ((b / 2.998e18) * lami)
        * ((lam.getD j 0 - lami) / ((b / 2.998e18) * lami)) ≠ 0 := mul_ne_zero hx hx
    have h2x : 2 * ((lam.getD j 0 - lami) / ((b / 2.998e18) * lami)
        * ((lam.getD j 0 - lami) / ((b / 2.998e18) * lami))) ≠ 0 :=
      mul_ne_zero (by norm_num) hxx
    rw [hmap]
    unfold voigt_point
    rw [if_pos hin]
    simp only [voigtPoint, qdiv, if_neg hden1, if_neg hldl, if_neg hsq, if_neg h2x,
      if_neg hxx, Option.some_bind]
    rfl

/-- Witness for C2's amended theorem: wavelength 2000 is outside the window
of the line at 1216 with `b = 1e13` (output `some 0`), wavelength 1217 is
inside and off-center (output defined). -/
theorem C2_voigt_window_amended_witness :
    ((1.0e13:ℚ) ≠ 0 ∧ (1216:ℚ) ≠ 0 ∧ EQ0.piV ≠ 0 ∧ EQ0.sqrtF EQ0.piV ≠ 0) ∧
    (voigt_approx EQ0 [2000, 1217] 1216 1.0e13 1).getD 0 none = some 0 ∧
    ((voigt_approx EQ0 [2000, 1217] 1216 1.0e13 1).getD 1 none).isSome = true :=
  ⟨⟨by norm_num, by norm_num, by norm_num [EQ0], by norm_num [EQ0]⟩,
   (C2_voigt_window_amended EQ0 [2000, 1217] 1216 1.0e13 1 (by norm_num) (by norm_num)
      (by norm_num [EQ0]) (by norm_num [EQ0]) 0 (by norm_num)).1 (by norm_num),
   (C2_voigt_window_amended EQ0 [2000, 1217] 1216 1.0e13 1 (by norm_num) (by norm_num)
      (by norm_num [EQ0]) (by norm_num [EQ0]) 1 (by norm_num)).2 (by norm_num) (by norm_num)⟩

theorem fz_cont_aux (c q : ℝ) (dz : ℝ) (hq : 0 ≤ q) (p : ℝ) :
    ContinuousAt (fun z : ℝ => 400 * ((1 + z) / c) ^ q * dz) p := by
  have hbase : ContinuousAt (fun z : ℝ => (1 + z) / c) p :=
    ((continuous_const.add continuous_id).div_const c).continuousAt
  exact (continuousAt_const.mul (hbase.rpow_const (Or.inr hq))).mul continuousAt_const

/-- Claim C6.  Under the real semantics (float power = real power), for
every `dz` the function `z ↦ fz_HI z dz` is continuous at both breakpoints
`z = 1.2` and `z = 4`: the one-sided limits agree with the value, i.e. the
left formula and the middle formula give the same value at `z = 1.2`
(both `400·1^γ·dz`) and the middle and right formulas agree at `z = 4`
(the right segment chains the normalization `((1+4)/(1+1.2))^2.5` instead of
resetting it), so there is no jump discontinuity. -/
theorem C6_fzHI_continuous (dz : ℝ) :
    ContinuousAt (fun z => fz_HI extR z dz) 1.2 ∧
    ContinuousAt (fun z => fz_HI extR z dz) 4 := by
  have hpw : extR.pw = fun x y : ℝ => x ^ y := rfl
  constructor
  · rw [continuousAt_iff_continuous_left_right]
    constructor
    · refine ((fz_cont_aux (1 + 1.2) 0.2 dz (by norm_num) 1.2).continuousWithinAt).congr
        (fun y hy => ?_) ?_
      · simp only [fz_HI, hpw, if_pos (Set.mem_Iic.mp hy)]
      · simp only [fz_HI, hpw, if_pos (le_refl (1.2:ℝ))]
    · have hM := (fz_cont_aux (1 + 1.2) 2.5 dz (by norm_num) 1.2).continuousWithinAt
        (s := Set.Ici 1.2)
      have hIco : Set.Ico (1.2:ℝ) 4 ∈ nhdsWithin (1.2:ℝ) (Set.Ici 1.2) := by
        rw [show Set.Ico (1.2:ℝ) 4 = Set.Ici 1.2 ∩ Set.Iio 4 by
            rw [Set.Ici_inter_Iio]]
        exact Filter.inter_mem self_mem_nhdsWithin
          (mem_nhdsWithin_of_mem_nhds (Iio_mem_nhds (by norm_num)))
      refine hM.congr_of_eventuallyEq (Filter.eventuallyEq_of_mem hIco (fun z hz => ?_)) ?_
      · rcases Set.mem_Ico.mp hz with ⟨h1, h2⟩
        rcases eq_or_lt_of_le h1 with h | h
        · simp only [fz_HI, hpw, ← h, if_pos (le_refl (1.2:ℝ))]
          norm_num [Real.one_rpow]
        · simp only [fz_HI, hpw, if_neg (not_le.mpr h), if_pos (le_of_lt h2)]
      · simp only [fz_HI, hpw, if_pos (le_refl (1.2:ℝ))]
        norm_num [Real.one_rpow]
  · rw [continuousAt_iff_continuous_left_right]
    constructor
    · have hM := (fz_cont_aux (1 + 1.2) 2.5 dz (by norm_num) 4).continuousWithinAt
        (s := Set.Iic 4)
      have hIoc : Set.Ioc (1.2:ℝ) 4 ∈ nhdsWithin (4:ℝ) (Set.Iic 4) := by
        rw [show Set.Ioc (1.2:ℝ) 4 = Set.Iic 4 ∩ Set.Ioi 1.2 by
            rw [Set.inter_comm, Set.Ioi_inter_Iic]]
        exact Filter.inter_mem self_mem_nhdsWithin
          (mem_nhdsWithin_of_mem_nhds (Ioi_mem_nhds (by norm_num)))
      refine hM.congr_of_eventuallyEq (Filter.eventuallyEq_of_mem hIoc (fun z hz => ?_)) ?_
      · rcases Set.mem_Ioc.mp hz with ⟨h1, h2⟩
        simp only [fz_HI, hpw, if_neg (not_le.mpr h1), if_pos h2]
      · simp only [fz_HI, hpw]
        rw [if_neg (by norm_num : ¬ (4:ℝ) ≤ 1.2), if_pos (le_refl (4:ℝ))]
    · have hR : ContinuousAt
          (fun z : ℝ =>
            400 * (((1 + 4) / (1 + 1.2)) ^ (2.5:ℝ) * ((1 + z) / (1 + 4)) ^ (4:ℝ)) * dz) 4 := by
        have hbase : ContinuousAt (fun z : ℝ => (1 + z) / (1 + 4)) 4 :=
          ((continuous_const.add continuous_id).div_const _).continuousAt
        exact (continuousAt_const.mul
          (continuousAt_const.mul (hbase.rpow_const (Or.inr (by norm_num))))).mul
          continuousAt_const
      refine (hR.continuousWithinAt).congr (fun y hy => ?_) ?_
      · rcases eq_or_lt_of_le (Set.mem_Ici.mp hy) with h | h
        · simp only [fz_HI, hpw, ← h]
          rw [if_neg (by norm_num : ¬ (4:ℝ) ≤ 1.2), if_pos (le_refl (4:ℝ))]
          norm_num [Real.one_rpow]
        · have h12 : ¬ y ≤ (1.2:ℝ) := not_le.mpr (lt_trans (by norm_num : (1.2:ℝ) < 4) h)
          have h4 : ¬ y ≤ (4:ℝ) := not_le.mpr h
          simp only [fz_HI, hpw, if_neg h12, if_neg h4]
      · simp only [fz_HI, hpw]
        rw [if_neg (by norm_num : ¬ (4:ℝ) ≤ 1.2), if_pos (le_refl (4:ℝ))]
        norm_num [Real.one_rpow]

theorem N_abs_pair (E : Extern α) (a b c z : α) :
    N_abs E [a, b, c] z
      = [N_abs_rate E z a * (E.pw 10 b - E.pw 10 a),
         N_abs_rate E z b * (E.pw 10 c - E.pw 10 b)] := by
  simp [N_abs, N_abs_widths]

theorem rate_width_strict (A q x y d : ℝ) (hA : 0 < A) (hq : q < -1) (hd : 0 < d)
    (hxy : x < y) :
    A * ((10:ℝ)^y)^q * ((10:ℝ)^(y+d) - (10:ℝ)^y)
      < A * ((10:ℝ)^x)^q * ((10:ℝ)^(x+d) - (10:ℝ)^x) := by
  have h10 : (0:ℝ) < 10 := by norm_num
  have h10' : (1:ℝ) < 10 := by norm_num
  have hid : ∀ t : ℝ, A * ((10:ℝ)^t)^q * ((10:ℝ)^(t+d) - (10:ℝ)^t)
      = A * (((10:ℝ)^d - 1) * (10:ℝ)^(t*q+t)) := by
    intro t
    have e1 : ((10:ℝ)^t)^q = (10:ℝ)^(t*q) := (Real.rpow_mul h10.le t q).symm
    have e2 : (10:ℝ)^(t+d) = (10:ℝ)^t * (10:ℝ)^d := Real.rpow_add h10 t d
    have e3 : (10:ℝ)^(t*q+t) = (10:ℝ)^(t*q) * (10:ℝ)^t := Real.rpow_add h10 _ _
    rw [e1, e2, e3]; ring
  rw [hid x, hid y]
  have hgt : (0:ℝ) < (10:ℝ)^d - 1 := by
    have : (1:ℝ) < (10:ℝ)^d := (Real.one_lt_rpow_iff_of_pos h10).mpr (Or.inl ⟨h10', hd⟩)
    linarith
  have hq1 : q + 1 < 0 := by linarith
  have hexp : y*q + y < x*q + x := by nlinarith [mul_lt_mul_of_neg_left hxy hq1]
  have hlt := Real.rpow_lt_rpow_of_exponent_lt h10' hexp
  exact mul_lt_mul_of_pos_left (mul_lt_mul_of_pos_left hlt hgt) hA

/-- Claim C9, counterexample.  The claim asserts `rate[i] > rate[i+1]` for
*every* strictly increasing edge array when consecutive edges lie in the
same power-law segment.  With edges `[17.3, 17.4, 30]` (all at or above the
17.2 break, hence one segment) and `z = 0`, under the real semantics the
first bin rate is below 1 (`≈ 10^{-0.37}`) while the second is above 1
(`≈ 10^{11.1}`, its huge linear bin width `10^30 - 10^17.4` dominating), so
the rates strictly increase: the claim fails for non-uniform bins. -/
theorem C9_decreasing_counterexample :
    (N_abs extR [(17.3:ℝ), 17.4, 30] 0).getD 0 0
      < (N_abs extR [(17.3:ℝ), 17.4, 30] 0).getD 1 0 := by
  have h10 : (0:ℝ) < 10 := by norm_num
  have h10' : (1:ℝ) < 10 := by norm_num
  have hpw : extR.pw = fun x y : ℝ => x ^ y := rfl
  rw [N_abs_pair]
  simp only [List.getD_cons_zero, List.getD_cons_succ]
  have hr3 : N_abs_rate extR (0:ℝ) 17.3
      = (10:ℝ)^(7.542:ℝ) * (1 + 0) * ((10:ℝ)^(17.3:ℝ))^(-1.463:ℝ) := by
    unfold N_abs_rate
    rw [if_pos (by norm_num : (17.2:ℝ) ≤ 17.3)]
    simp only [hpw]
  have hr4 : N_abs_rate extR (0:ℝ) 17.4
      = (10:ℝ)^(7.542:ℝ) * (1 + 0) * ((10:ℝ)^(17.4:ℝ))^(-1.463:ℝ) := by
    unfold N_abs_rate
    rw [if_pos (by norm_num : (17.2:ℝ) ≤ 17.4)]
    simp only [hpw]
  rw [hr3, hr4]
  simp only [hpw]
  have hL1 : (10:ℝ)^(7.542:ℝ) * (1 + 0) * ((10:ℝ)^(17.3:ℝ))^(-1.463:ℝ)
      * ((10:ℝ)^(17.4:ℝ) - (10:ℝ)^(17.3:ℝ)) < 1 := by
    have e1 : ((10:ℝ)^(17.3:ℝ))^(-1.463:ℝ) = (10:ℝ)^(-25.3099:ℝ) := by
      rw [← Real.rpow_mul h10.le]
      norm_num
    have hw : (10:ℝ)^(17.4:ℝ) - (10:ℝ)^(17.3:ℝ) < (10:ℝ)^(17.4:ℝ) := by
      have := Real.rpow_pos_of_pos h10 (17.3:ℝ)
      linarith
    have hstep : (10:ℝ)^(7.542:ℝ) * (1 + 0) * (10:ℝ)^(-25.3099:ℝ)
        * ((10:ℝ)^(17.4:ℝ) - (10:ℝ)^(17.3:ℝ))
        < (10:ℝ)^(7.542:ℝ) * (10:ℝ)^(-25.3099:ℝ) * (10:ℝ)^(17.4:ℝ) := by
      have hpos : (0:ℝ) < (10:ℝ)^(7.542:ℝ) * (10:ℝ)^(-25.3099:ℝ) :=
        mul_pos (Real.rpow_pos_of_pos h10 _) (Real.rpow_pos_of_pos h10 _)
      calc (10:ℝ)^(7.542:ℝ) * (1 + 0) * (10:ℝ)^(-25.3099:ℝ)
            * ((10:ℝ)^(17.4:ℝ) - (10:ℝ)^(17.3:ℝ))
          = ((10:ℝ)^(7.542:ℝ) * (10:ℝ)^(-25.3099:ℝ))
            * ((10:ℝ)^(17.4:ℝ) - (10:ℝ)^(17.3:ℝ)) := by ring
        _ < ((10:ℝ)^(7.542:ℝ) * (10:ℝ)^(-25.3099:ℝ)) * (10:ℝ)^(17.4:ℝ) :=
            mul_lt_mul_of_pos_left hw hpos
        _ = (10:ℝ)^(7.542:ℝ) * (10:ℝ)^(-25.3099:ℝ) * (10:ℝ)^(17.4:ℝ) := by ring
    have hone : (10:ℝ)^(7.542:ℝ) * (10:ℝ)^(-25.3099:ℝ) * (10:ℝ)^(17.4:ℝ)
        = (10:ℝ)^(-0.3679:ℝ) := by
      rw [← Real.rpow_add h10, ← Real.rpow_add h10]
      norm_num
    rw [e1]
    calc (10:ℝ)^(7.542:ℝ) * (1 + 0) * (10:ℝ)^(-25.3099:ℝ)
          * ((10:ℝ)^(17.4:ℝ) - (10:ℝ)^(17.3:ℝ))
        < (10:ℝ)^(7.542:ℝ) * (10:ℝ)^(-25.3099:ℝ) * (10:ℝ)^(17.4:ℝ) := hstep
      _ = (10:ℝ)^(-0.3679:ℝ) := hone
      _ < 1 := Real.rpow_lt_one_of_one_lt_of_neg h10' (by norm_num)
  have hR1 : (1:ℝ) < (10:ℝ)^(7.542:ℝ) * (1 + 0) * ((10:ℝ)^(17.4:ℝ))^(-1.463:ℝ)
      * ((10:ℝ)^(30:ℝ) - (10:ℝ)^(17.4:ℝ)) := by
    have e1 : ((10:ℝ)^(17.4:ℝ))^(-1.463:ℝ) = (10:ℝ)^(-25.4562:ℝ) := by
      rw [← Real.rpow_mul h10.le]
      norm_num
    have hbig : (10:ℝ)^(29:ℝ) < (10:ℝ)^(30:ℝ) - (10:ℝ)^(17.4:ℝ) := by
      have h1 : (10:ℝ)^(17.4:ℝ) < (10:ℝ)^(29:ℝ) :=
        Real.rpow_lt_rpow_of_exponent_lt h10' (by norm_num)
      have h2 : (10:ℝ)^(30:ℝ) = (10:ℝ)^(29:ℝ) * (10:ℝ)^(1:ℝ) := by
        rw [← Real.rpow_add h10]; norm_num
      have h3 : (10:ℝ)^(1:ℝ) = 10 := Real.rpow_one 10
      have h4 : (0:ℝ) < (10:ℝ)^(29:ℝ) := Real.rpow_pos_of_pos h10 _
      nlinarith
    have hpos : (0:ℝ) < (10:ℝ)^(7.542:ℝ) * (10:ℝ)^(-25.4562:ℝ) :=
      mul_pos (Real.rpow_pos_of_pos h10 _) (Real.rpow_pos_of_pos h10 _)
    have hone : (10:ℝ)^(7.542:ℝ) * (10:ℝ)^(-25.4562:ℝ) * (10:ℝ)^(29:ℝ)
        = (10:ℝ)^(11.0858:ℝ) := by
      rw [← Real.rpow_add h10, ← Real.rpow_add h10]
      norm_num
    have h11 : (1:ℝ) < (10:ℝ)^(11.0858:ℝ) :=
      (Real.one_lt_rpow_iff_of_pos h10).mpr (Or.inl ⟨h10', by norm_num⟩)
    rw [e1]
    calc (1:ℝ) < (10:ℝ)^(11.0858:ℝ) := h11
      _ = (10:ℝ)^(7.542:ℝ) * (10:ℝ)^(-25.4562:ℝ) * (10:ℝ)^(29:ℝ) := hone.symm
      _ ≤ (10:ℝ)^(7.542:ℝ) * (10:ℝ)^(-25.4562:ℝ)
          * ((10:ℝ)^(30:ℝ) - (10:ℝ)^(17.4:ℝ)) := by
          exact mul_le_mul_of_nonneg_left hbig.le hpos.le
      _ = (10:ℝ)^(7.542:ℝ) * (1 + 0) * (10:ℝ)^(-25.4562:ℝ)
          * ((10:ℝ)^(30:ℝ) - (10:ℝ)^(17.4:ℝ)) := by ring
  linarith

theorem N_abs_getD (E : Extern α) (NHIs : List α) (z : α) (i : ℕ)
    (hi : i + 1 < NHIs.length) :
    (N_abs E NHIs z).getD i 0
      = N_abs_rate E z (NHIs.getD i 0)
        * (E.pw 10 (NHIs.getD (i + 1) 0) - E.pw 10 (NHIs.getD i 0)) := by
  have hlen1 : i < (NHIs.map (N_abs_rate E z)).length := by
    rw [List.length_map]; omega
  have hlen2 : i < (N_abs_widths E NHIs).length := by
    rw [N_abs_widths_length]; omega
  unfold N_abs
  rw [getD_zipWith _ _ _ i hlen1 hlen2 0 0 0, getD_list_map _ _ i (by omega) 0 0,
    N_abs_widths_getD E NHIs i hi]

theorem N_abs_rate_width_lt (x d z : ℝ) (hd : 0 < d) (hz : 0 ≤ z)
    (hseg : 17.2 ≤ x ∨ x + d < 17.2) :
    N_abs_rate extR z (x + d) * (extR.pw 10 (x + d + d) - extR.pw 10 (x + d))
      < N_abs_rate extR z x * (extR.pw 10 (x + d) - extR.pw 10 x) := by
  have h10 : (0:ℝ) < 10 := by norm_num
  have hpw : extR.pw = fun a b : ℝ => a ^ b := rfl
  have h1z : (0:ℝ) < 1 + z := by linarith
  rcases hseg with hhi | hlo
  · have hhi' : (17.2:ℝ) ≤ x + d := by linarith
    have hrA : N_abs_rate extR z x
        = ((10:ℝ)^(7.542:ℝ) * (1 + z)) * ((10:ℝ)^x)^(-1.463:ℝ) := by
      unfold N_abs_rate
      rw [if_pos hhi]
      simp only [hpw]
    have hrB : N_abs_rate extR z (x + d)
        = ((10:ℝ)^(7.542:ℝ) * (1 + z)) * ((10:ℝ)^(x+d))^(-1.463:ℝ) := by
      unfold N_abs_rate
      rw [if_pos hhi']
      simp only [hpw]
    rw [hrA, hrB]
    simp only [hpw]
    have hA : (0:ℝ) < (10:ℝ)^(7.542:ℝ) * (1 + z) :=
      mul_pos (Real.rpow_pos_of_pos h10 _) h1z
    exact rate_width_strict ((10:ℝ)^(7.542:ℝ) * (1 + z)) (-1.463) x (x + d) d hA
      (by norm_num) hd (by linarith)
  · have hlo' : x < 17.2 := by linarith
    have hrA : N_abs_rate extR z x
        = ((10:ℝ)^(9.305:ℝ) * (1 + z)^(2.5:ℝ)) * ((10:ℝ)^x)^(-1.635:ℝ) := by
      unfold N_abs_rate
      rw [if_neg (not_le.mpr hlo')]
      simp only [hpw]
    have hrB : N_abs_rate extR z (x + d)
        = ((10:ℝ)^(9.305:ℝ) * (1 + z)^(2.5:ℝ)) * ((10:ℝ)^(x+d))^(-1.635:ℝ) := by
      unfold N_abs_rate
      rw [if_neg (not_le.mpr hlo)]
      simp only [hpw]
    rw [hrA, hrB]
    simp only [hpw]
    have hA : (0:ℝ) < (10:ℝ)^(9.305:ℝ) * (1 + z)^(2.5:ℝ) :=
      mul_pos (Real.rpow_pos_of_pos h10 _) (Real.rpow_pos_of_pos h1z _)
    exact rate_width_strict ((10:ℝ)^(9.305:ℝ) * (1 + z)^(2.5:ℝ)) (-1.635) x (x + d) d hA
      (by norm_num) hd (by linarith)

/-- Claim C9, amended.  For every uniformly log-spaced strictly increasing
edge array (`edges[k] = e0 + k*d` with spacing `d > 0`) and every adjacent
pair of bins `i`, `i+1` whose centers lie in the same power-law segment
(both at/above the 17.2 break, or both strictly below it), the per-bin
rates of `N_abs` under the real semantics are strictly decreasing,
`rate[i+1] < rate[i]`; for arbitrary strictly increasing edge arrays the
property fails (see the counterexample). -/
theorem C9_uniform_decreasing_amended (edges : List ℝ) (e0 d z : ℝ)
    (hd : 0 < d) (hz : 0 ≤ z)
    (huni : ∀ k, k < edges.length → edges.getD k 0 = e0 + k * d)
    (i : ℕ) (hi : i + 2 < edges.length)
    (hseg : 17.2 ≤ edges.getD i 0 ∨ edges.getD (i + 1) 0 < 17.2) :
    (N_abs extR edges z).getD (i + 1) 0 < (N_abs extR edges z).getD i 0 := by
  have hx : edges.getD i 0 = e0 + i * d := huni i (by omega)
  have hx1 : edges.getD (i + 1) 0 = e0 + (i + 1 : ℕ) * d := huni (i + 1) (by omega)
  have hx2 : edges.getD (i + 1 + 1) 0 = e0 + (i + 1 + 1 : ℕ) * d :=
    huni (i + 1 + 1) (by omega)
  have e1 : e0 + ((i + 1 : ℕ) : ℝ) * d = e0 + (i : ℝ) * d + d := by
    push_cast
    ring
  have e2 : e0 + ((i + 1 + 1 : ℕ) : ℝ) * d = e0 + (i : ℝ) * d + d + d := by
    push_cast
    ring
  rw [N_abs_getD extR edges z i (by omega), N_abs_getD extR edges z (i + 1) (by omega),
    hx, hx1, hx2, e1, e2]
  rw [hx, hx1, e1] at hseg
  exact N_abs_rate_width_lt (e0 + (i : ℝ) * d) d z hd hz hseg

/-- Witness for C9's amended theorem at the uniform edge array
`[18, 19, 20]` (spacing 1) and `z = 0`, comparing the two bins. -/
theorem C9_uniform_decreasing_amended_witness :
    ((0:ℝ) < 1 ∧ (0:ℝ) ≤ 0
      ∧ (∀ k, k < ([(18:ℝ), 19, 20]).length → ([(18:ℝ), 19, 20]).getD k 0 = 18 + k * 1)
      ∧ 0 + 2 < ([(18:ℝ), 19, 20]).length
      ∧ (17.2 ≤ ([(18:ℝ), 19, 20]).getD 0 0 ∨ ([(18:ℝ), 19, 20]).getD (0 + 1) 0 < 17.2)) ∧
    (N_abs extR [18, 19, 20] 0).getD (0 + 1) 0 < (N_abs extR [18, 19, 20] 0).getD 0 0 := by
  have huni3 : ∀ k, k < ([(18:ℝ), 19, 20]).length →
      ([(18:ℝ), 19, 20]).getD k 0 = 18 + k * 1 := by
    intro k hk
    match k with
    | 0 => norm_num
    | 1 => norm_num
    | 2 => norm_num
    | n + 3 =>
      simp only [List.length_cons, List.length_nil] at hk
      omega
  exact ⟨⟨zero_lt_one, le_refl 0, huni3, by simp, Or.inl (by norm_num)⟩,
    C9_uniform_decreasing_amended [18, 19, 20] 18 1 0 zero_lt_one (le_refl 0) huni3 0
      (by simp) (Or.inl (by norm_num))⟩

theorem exp_quarter_bounds :
    Real.exp (1/4) < 1.2841 ∧ (Real.exp (1/4))^2 < 1.6488 := by
  have hu4 : (Real.exp (1/4:ℝ))^(4:ℕ) = Real.exp 1 := by
    rw [← Real.exp_nat_mul]
    norm_num
  constructor
  · by_contra hc
    push_neg at hc
    have h1 : (1.2841:ℝ)^(4:ℕ) ≤ (Real.exp (1/4))^(4:ℕ) := pow_le_pow_left₀ (by norm_num) hc 4
    rw [hu4] at h1
    nlinarith [Real.exp_one_lt_d9]
  · by_contra hc
    push_neg at hc
    have h1 : (1.6488:ℝ)^(2:ℕ) ≤ ((Real.exp (1/4))^2)^(2:ℕ) := pow_le_pow_left₀ (by norm_num) hc 2
    have h2 : ((Real.exp (1/4:ℝ))^2)^(2:ℕ) = (Real.exp (1/4))^(4:ℕ) := by ring
    rw [h2, hu4] at h1
    nlinarith [Real.exp_one_lt_d9]

theorem pi_sqrt_pi_lt : Real.pi * Real.sqrt Real.pi < 6.2541 := by
  have hpi : 0 < Real.pi := Real.pi_pos
  have hsq : 0 < Real.sqrt Real.pi := Real.sqrt_pos.mpr hpi
  have hsq2 : Real.sqrt Real.pi ^ 2 = Real.pi := Real.sq_sqrt hpi.le
  have hcube : (Real.pi * Real.sqrt Real.pi)^2 = Real.pi^3 := by
    rw [mul_pow, hsq2]; ring
  refine lt_of_pow_lt_pow_left₀ 2 (by norm_num) ?_
  rw [hcube]
  nlinarith [Real.pi_lt_d2, hpi, sq_nonneg Real.pi]

theorem Kx_lb : (1/2:ℝ) < 24 * (Real.exp (1/4))⁻¹ - 14 * Real.exp (1/4) := by
  obtain ⟨hub, hub2⟩ := exp_quarter_bounds
  have hu0 : (0:ℝ) < Real.exp (1/4) := Real.exp_pos _
  have hu0' : Real.exp (1/4:ℝ) ≠ 0 := hu0.ne'
  have key : 0 < 24 - 14*(Real.exp (1/4))^2 - (Real.exp (1/4))/2 := by nlinarith
  have hX : 24 * (Real.exp (1/4))⁻¹ - 14 * Real.exp (1/4) - 1/2
      = (24 - 14*(Real.exp (1/4))^2 - (Real.exp (1/4))/2) / Real.exp (1/4) := by
    field_simp
    ring
  have hpos := div_pos key hu0
  rw [← hX] at hpos
  linarith

theorem A2_gt_two :
    (2:ℝ) < 1000 * 1000 * 1.5e14 / (4 * Real.pi * 2.998e18 * 2) * (2 / Real.sqrt Real.pi) := by
  have hpi : 0 < Real.pi := Real.pi_pos
  have hsq : 0 < Real.sqrt Real.pi := Real.sqrt_pos.mpr hpi
  have hps := pi_sqrt_pi_lt
  rw [div_mul_div_comm, lt_div_iff₀ (by positivity)]
  nlinarith [hps, hpi, hsq]

theorem voigt_core_neg (A2v Kxv e4 : ℝ) (hA2 : 2 < A2v) (hKx : 1/2 < Kxv)
    (he4 : 0 < e4) : e4 * (1 - A2v * Kxv) < 0 := by
  have h1 : 1 < A2v * Kxv := by nlinarith [mul_pos (sub_pos.mpr hA2) (sub_pos.mpr hKx)]
  exact mul_neg_of_pos_of_neg he4 (by linarith)

/-- Claim C7, counterexample.  The claim asserts nonnegative `make_tau`
entries and per-bin increments for all inputs with `b > 0`.  With one bin at
`z = 0`, total column density `10^0 = 1`, wavelength 1001, Doppler draw
599.6 (on the sampler's support grid, so `b = 5.996e15 > 0`) and a single
transition `(li, fi, gamma) = (1000, 1, 1.5e14)`, the reduced offset is
`x = 1/2`, and the Tepper-Garcia factor `1 - A2*Kx` is negative
(`A2 > 2` since the damping-to-Doppler ratio is large, `Kx > 1/2` from the
bounds on `exp(1/4)`), so the line-series contribution - finite, hence not
zeroed - is negative, and since the continuum term vanishes at 1001 > 911.8
the accumulated optical-depth entry is negative. -/
theorem C7_negative_entry_counterexample :
    (make_tau extR csR bsR [0] (1/10) [1] [17, 18] [1001] [(1000, 1, 1.5e14)]).getD 0 0 < 0 := by
  have hpi0 : Real.pi ≠ 0 := Real.pi_ne_zero
  have hsq0 : Real.sqrt Real.pi ≠ 0 := (Real.sqrt_pos.mpr Real.pi_pos).ne'
  have hlen1 : (binInc extR csR bsR [0] (1/10) [1] [17, 18] [1001] [(1000, 1, 1.5e14)] 0).length = 1 := by
    rw [binInc_length]
    rfl
  have h1 : (make_tau extR csR bsR [0] (1/10) [1] [17, 18] [1001] [(1000, 1, 1.5e14)]).getD 0 0
      = (binInc extR csR bsR [0] (1/10) [1] [17, 18] [1001] [(1000, 1, 1.5e14)] 0).getD 0 0 := by
    unfold make_tau
    rw [show (List.range ([(0:ℝ)]:List ℝ).length) = [0] from by decide]
    rw [List.foldl_cons, List.foldl_nil]
    rw [if_pos (show ([(1:ℝ)]:List ℝ).getD 0 0 ≠ 0 from by norm_num)]
    rw [getD_zipWith (fun a b => a + b) _ _ 0 (by simp) (by rw [hlen1]; norm_num) 0 0 0]
    simp
  have h2 : (binInc extR csR bsR [0] (1/10) [1] [17, 18] [1001] [(1000, 1, 1.5e14)] 0).getD 0 0
      = (tau_HI_LyC (binTotalN extR csR [0] (1/10) [1] [17, 18] 0) [1001] 0).getD 0 0
        + binTotalN extR csR [0] (1/10) [1] [17, 18] 0
          * (tau_HI_LAF extR (bsR 0) [1001] 0 [(1000, 1, 1.5e14)]).getD 0 0 := by
    unfold binInc
    simp only [List.getD_cons_zero]
    rw [getD_zipWith _ _ _ 0 (by rw [tau_HI_LyC_length]; norm_num)
      (by rw [tau_HI_LAF_length]; norm_num) 0 0 0]
  have h3 : binTotalN extR csR [0] (1/10) [1] [17, 18] 0 = 1 := by
    simp [binTotalN, N_single_z, csR, extR, Real.rpow_zero]
  have h4 : (tau_HI_LyC (1:ℝ) [1001] 0).getD 0 0 = 0 := by
    norm_num [tau_HI_LyC]
  have h5 : (tau_HI_LAF extR (bsR 0) [1001] 0 [(1000, 1, 1.5e14)]).getD 0 0
      = (lineTerm extR (599.6 * 1.0e13) 0 1000 1 1.5e14 1001).getD 0 := by
    simp [tau_HI_LAF, bsR]
  have hwin : |(1001:ℝ)/(1+0) - 1000| ≤ 1.812 * (599.6 * 1.0e13 / 1.0e13) := by
    rw [show (1001:ℝ)/(1+0) - 1000 = 1 from by norm_num, abs_one]
    norm_num
  have hldl : ((599.6 * 1.0e13 : ℝ) / 2.998e18) * 1000 = 2 := by norm_num
  have hqa : qdiv ((1000:ℝ) * 1000 * 1.5e14) (4 * Real.pi * 2.998e18 * 2)
      = some (1000 * 1000 * 1.5e14 / (4 * Real.pi * 2.998e18 * 2)) := by
    rw [qdiv, if_neg (by positivity)]
  have hqx : qdiv ((1001:ℝ)/(1+0) - 1000) 2 = some (1/2) := by
    rw [qdiv, if_neg (by norm_num : (2:ℝ) ≠ 0)]
    norm_num
  have hqsp : qdiv (2:ℝ) (Real.sqrt Real.pi) = some (2 / Real.sqrt Real.pi) := by
    rw [qdiv, if_neg hsq0]
  have hqK1 : qdiv (1:ℝ) (2 * ((1:ℝ)/2 * (1/2))) = some 2 := by
    rw [qdiv, if_neg (by norm_num)]
    norm_num
  have hqix : qdiv (1:ℝ) ((1:ℝ)/2 * (1/2)) = some 4 := by
    rw [qdiv, if_neg (by norm_num)]
    norm_num
  have hvp : voigt_point extR 1000 (599.6 * 1.0e13) 1.5e14 ((1001:ℝ)/(1+0))
      = some (Real.exp (-1 * (1/2 * (1/2)))
          * (1 - 1000 * 1000 * 1.5e14 / (4 * Real.pi * 2.998e18 * 2) * (2 / Real.sqrt Real.pi)
            * (2 * ((4 * (1/2 * (1/2)) + 3) * (1/2 * (1/2) + 1) * Real.exp (-1 * (1/2 * (1/2)))
              - 4 * (2 * (1/2 * (1/2)) + 3) * Real.sinh (1/2 * (1/2)))))) := by
    unfold voigt_point
    rw [if_pos hwin]
    simp only [voigtPoint, show extR.sqrtF = Real.sqrt from rfl,
      show extR.piV = Real.pi from rfl, show extR.expF = Real.exp from rfl,
      show extR.sinhF = Real.sinh from rfl]
    rw [hldl]
    rw [hqa, Option.some_bind, hqx, Option.some_bind, hqsp, Option.some_bind,
      hqK1, Option.some_bind, hqix, Option.some_bind]
  have h6 : lineTerm extR (599.6 * 1.0e13) 0 1000 1 1.5e14 1001
      = some (1.75 * (2.998e10 * Real.sqrt (3 * Real.pi * 6.625e-25 / 8))
          * (1 * 1000 / (Real.sqrt Real.pi * (599.6 * 1.0e13)))
          * (Real.exp (-1 * (1/2 * (1/2)))
            * (1 - 1000 * 1000 * 1.5e14 / (4 * Real.pi * 2.998e18 * 2) * (2 / Real.sqrt Real.pi)
              * (2 * ((4 * (1/2 * (1/2)) + 3) * (1/2 * (1/2) + 1) * Real.exp (-1 * (1/2 * (1/2)))
                - 4 * (2 * (1/2 * (1/2)) + 3) * Real.sinh (1/2 * (1/2))))))) := by
    unfold lineTerm
    simp only [show extR.sqrtF = Real.sqrt from rfl, show extR.piV = Real.pi from rfl]
    rw [show qdiv ((1:ℝ) * 1000) (Real.sqrt Real.pi * (599.6 * 1.0e13))
        = some (1 * 1000 / (Real.sqrt Real.pi * (599.6 * 1.0e13))) from by
      rw [qdiv, if_neg (mul_ne_zero hsq0 (by norm_num))]]
    rw [Option.some_bind, hvp, Option.map_some']
  rw [h1, h2, h3, h4, h5, h6]
  simp only [Option.getD_some]
  have hA1pos : (0:ℝ) < 2.998e10 * Real.sqrt (3 * Real.pi * 6.625e-25 / 8) := by
    have : (0:ℝ) < 3 * Real.pi * 6.625e-25 / 8 := by positivity
    positivity
  have hA2pos : (0:ℝ) < 1 * 1000 / (Real.sqrt Real.pi * (599.6 * 1.0e13)) := by positivity
  have hVPneg : Real.exp (-1 * (1/2 * (1/2)))
      * (1 - 1000 * 1000 * 1.5e14 / (4 * Real.pi * 2.998e18 * 2) * (2 / Real.sqrt Real.pi)
        * (2 * ((4 * (1/2 * (1/2)) + 3) * (1/2 * (1/2) + 1) * Real.exp (-1 * (1/2 * (1/2)))
          - 4 * (2 * (1/2 * (1/2)) + 3) * Real.sinh (1/2 * (1/2))))) < 0 := by
    refine voigt_core_neg _ _ _ A2_gt_two ?_ (Real.exp_pos _)
    simp only [neg_one_mul, Real.sinh_eq, Real.exp_neg]
    rw [show (1/2:ℝ) * (1/2) = 1/4 from by norm_num]
    rw [show (2:ℝ) * ((4 * (1/4:ℝ) + 3) * ((1/4:ℝ) + 1) * (Real.exp (1/4))⁻¹
        - 4 * (2 * (1/4:ℝ) + 3) * ((Real.exp (1/4) - (Real.exp (1/4))⁻¹)/2))
        = 24 * (Real.exp (1/4))⁻¹ - 14 * Real.exp (1/4) from by ring]
    exact Kx_lb
  have hposfac : (0:ℝ) < 1.75 * (2.998e10 * Real.sqrt (3 * Real.pi * 6.625e-25 / 8))
      * (1 * 1000 / (Real.sqrt Real.pi * (599.6 * 1.0e13))) := by positivity
  have := mul_neg_of_pos_of_neg hposfac hVPneg
  linarith

theorem tau_HI_LyC_nonneg (N z : α) (lam : List α) (hN : 0 ≤ N) (hz : 0 ≤ z)
    (hlam : ∀ l ∈ lam, 0 ≤ l) : ∀ t ∈ tau_HI_LyC N lam z, 0 ≤ t := by
  intro t ht
  unfold tau_HI_LyC at ht
  rcases List.mem_map.mp ht with ⟨l, hl, rfl⟩
  by_cases hcond : 1 < l / (911.8 * (1 + z))
  · simp [hcond]
  · simp only [if_neg hcond]
    have hlc : (0:α) < 911.8 * (1 + z) := by
      have ha : (0:α) < 911.8 := by norm_num
      have hb : (0:α) < 1 + z := by linarith
      exact mul_pos ha hb
    have hx : 0 ≤ l / (911.8 * (1 + z)) := div_nonneg (hlam l hl) hlc.le
    have h63 : (0:α) ≤ 6.3e-18 := by norm_num
    exact mul_nonneg (mul_nonneg hN h63) (mul_nonneg (mul_nonneg hx hx) hx)

theorem binTotalN_nonneg (E : Extern α) (cs : ℕ → List α → List α → α → List α)
    (zs : List α) (dz : α) (fzs NHIs : List α) (i : ℕ)
    (hpw : ∀ x, 0 ≤ E.pw 10 x) :
    0 ≤ binTotalN E cs zs dz fzs NHIs i := by
  unfold binTotalN
  refine List.sum_nonneg ?_
  intro x hx
  rcases List.mem_map.mp hx with ⟨d, _, rfl⟩
  exact hpw d

theorem exists_of_mem_zipWith {A B C : Type} (f : A → B → C) :
    ∀ (l1 : List A) (l2 : List B) (c : C), c ∈ List.zipWith f l1 l2 →
      ∃ a ∈ l1, ∃ b ∈ l2, c = f a b
  | [], _, c, h => by simp at h
  | _ :: _, [], c, h => by simp at h
  | a :: t1, b :: t2, c, h => by
    rcases List.mem_cons.mp h with h | h
    · exact ⟨a, by simp, b, by simp, h⟩
    · rcases exists_of_mem_zipWith f t1 t2 c h with ⟨x, hx, y, hy, rfl⟩
      exact ⟨x, by simp [hx], y, by simp [hy], rfl⟩

/-- Claim C7, amended.  Nonnegativity of the accumulated optical depth and
of every per-bin increment holds for nonnegative wavelengths and redshifts
and nonnegative column-density contributions (`0 ≤ pw 10 x`, satisfied by
the real power), *provided* every entry of the per-bin line-series output
`tau_HI_LAF` is nonnegative.  The unconditional claim "for all b > 0" is
false: the Tepper-Garcia approximation itself turns negative when the
damping-to-Doppler ratio is large (see the counterexample, which exhibits a
negative `make_tau` entry at a positive in-support Doppler draw with a large
damping constant). -/
theorem C7_nonneg_amended (E : Extern α) (cs : ℕ → List α → List α → α → List α)
    (bs : ℕ → α) (zs : List α) (dz : α) (fzs NHIs wav : List α)
    (table : List (α × α × α))
    (hwav : ∀ l ∈ wav, 0 ≤ l) (hzs : ∀ z ∈ zs, 0 ≤ z)
    (hpw : ∀ x, 0 ≤ E.pw 10 x)
    (hlaf : ∀ i, ∀ t ∈ tau_HI_LAF E (bs i) wav (zs.getD i 0) table, 0 ≤ t) :
    (∀ i, i < zs.length → ∀ t ∈ binInc E cs bs zs dz fzs NHIs wav table i, 0 ≤ t)
    ∧ (∀ t ∈ make_tau E cs bs zs dz fzs NHIs wav table, 0 ≤ t) := by
  have hbin : ∀ i, i < zs.length →
      ∀ t ∈ binInc E cs bs zs dz fzs NHIs wav table i, 0 ≤ t := by
    intro i hi t ht
    unfold binInc at ht
    rcases exists_of_mem_zipWith _ _ _ t ht with ⟨a, ha, l, hl, rfl⟩
    have hzi : 0 ≤ zs.getD i 0 := hzs _ (getD_mem_of_lt zs i 0 hi)
    have hcdt : 0 ≤ binTotalN E cs zs dz fzs NHIs i :=
      binTotalN_nonneg E cs zs dz fzs NHIs i hpw
    have h1 : 0 ≤ a := tau_HI_LyC_nonneg _ _ wav hcdt hzi hwav a ha
    exact add_nonneg h1 (mul_nonneg hcdt (hlaf i l hl))
  refine ⟨hbin, ?_⟩
  intro t ht
  rcases List.mem_iff_getElem.mp ht with ⟨j, hjl, rfl⟩
  have hlen : (make_tau E cs bs zs dz fzs NHIs wav table).length = wav.length := by
    unfold make_tau
    exact maskfold_length _ _ wav.length (binInc_length E cs bs zs dz fzs NHIs wav table)
      _ _ (List.length_replicate _ _)
  have hj : j < wav.length := by rw [← hlen]; exact hjl
  have hgd : (make_tau E cs bs zs dz fzs NHIs wav table)[j]
      = (make_tau E cs bs zs dz fzs NHIs wav table).getD j 0 := by
    rw [List.getD_eq_getElem?_getD, List.getElem?_eq_getElem hjl]
    rfl
  rw [hgd]
  unfold make_tau
  rw [maskfold_getD (fun i => fzs.getD i 0 ≠ 0) _ wav.length j
      (binInc_length E cs bs zs dz fzs NHIs wav table) hj _ _
      (List.length_replicate _ _),
    getD_replicate_of_lt _ _ _ _ hj, zero_add]
  refine List.sum_nonneg ?_
  intro x hx
  rcases List.mem_map.mp hx with ⟨i, hi, rfl⟩
  have hir : i < zs.length := List.mem_range.mp (List.mem_filter.mp hi).1
  have hblen : j < (binInc E cs bs zs dz fzs NHIs wav table i).length := by
    rw [binInc_length]; exact hj
  exact hbin i hir _ (getD_mem_of_lt _ j 0 hblen)

/-- Witness for C7's amended theorem: one bin at `z = 0`, wavelength grid
`[1]`, empty transition table (line-series output all zeros). -/
theorem C7_nonneg_amended_witness :
    ((∀ l ∈ [(1:ℚ)], 0 ≤ l) ∧ (∀ z ∈ [(0:ℚ)], 0 ≤ z) ∧ (∀ x : ℚ, 0 ≤ EQ1.pw 10 x)
      ∧ (∀ i, ∀ t ∈ tau_HI_LAF EQ1 (bs0q i) [1] (([(0:ℚ)]).getD i 0) [], 0 ≤ t)) ∧
    ((∀ i, i < ([(0:ℚ)]).length →
        ∀ t ∈ binInc EQ1 cs0q bs0q [0] (1/10) [1] [17, 18] [1] [] i, 0 ≤ t)
      ∧ (∀ t ∈ make_tau EQ1 cs0q bs0q [0] (1/10) [1] [17, 18] [1] [], 0 ≤ t)) := by
  have hlaf : ∀ i, ∀ t ∈ tau_HI_LAF EQ1 (bs0q i) [1] (([(0:ℚ)]).getD i 0) [], 0 ≤ t := by
    intro i t ht
    simp [tau_HI_LAF, List.mem_replicate] at ht
    exact le_of_eq ht.symm
  exact ⟨⟨by norm_num, by norm_num, fun x => by norm_num [EQ1], hlaf⟩,
    C7_nonneg_amended EQ1 cs0q bs0q [0] (1/10) [1] [17, 18] [1] [] (by norm_num)
      (by norm_num) (fun x => by norm_num [EQ1]) hlaf⟩
